import Mathlib

/-!
Shallow embedding of the pdf2html conversion script (script.js).

Strings are modelled as lists of characters.  The JavaScript regular
expressions used by the script are all of a very restricted shape
(literal opening tag, non-greedy gap, literal closing tag, optionally an
end-of-input alternative), so they are embedded as first-occurrence
scans over the character list, which is exactly the semantics the
JavaScript engine gives them on these patterns.

The embedded pieces are:
  * extractTextFromPDF      - page/item concatenation plus whitespace
                              normalisation (the pdf.js calls themselves are
                              the external library and appear as the
                              page/item input data);
  * the streaming read loop - processing of "data: " lines, the [DONE]
                              sentinel, JSON-frame effects on the
                              accumulated content/model/usage (JSON.parse is
                              external and is passed in as a parse oracle);
  * the reduction of a cumulative buffer to reasoning excerpt and HTML
    payload, in its four variants: the final pass of
    generateHtmlFromText, the final pass of generateHtmlFromImages, and
    the per-chunk onChunk callback (html view, reasoning view, latch).
-/

abbrev Str := List Char

/-- Character list of a string literal. -/
def str (s : String) : Str := s.data

/-- JavaScript whitespace (the characters relevant to trim and the regex
class backslash-s, restricted to the code points the tool's data can
contain). -/
def jsWs (c : Char) : Bool :=
  c == ' ' || c == '\t' || c == '\n' || c == '\r' || c == '\x0b' ||
  c == '\x0c' || c == '\u00A0' || c == '\uFEFF'

/-- Case-sensitive literal match of pattern at the head of the text.  -/
def matchCS : Str → Str → Bool
  | [], _ => true
  | _ :: _, [] => false
  | p :: ps, c :: cs => (p == c) && matchCS ps cs

/-- Case-insensitive literal match at the head (the pattern is stored in
lower case, as in the source regexes, and the text is lowered ASCII-wise
exactly as the i flag does on these ASCII patterns). -/
def matchCI : Str → Str → Bool
  | [], _ => true
  | _ :: _, [] => false
  | p :: ps, c :: cs => (p == c.toLower) && matchCI ps cs

/-- Index of the first case-sensitive occurrence of the pattern. -/
def findCS (pat : Str) : Str → Option Nat
  | [] => if matchCS pat [] then some 0 else none
  | c :: rest =>
    if matchCS pat (c :: rest) then some 0
    else (findCS pat rest).map (· + 1)

/-- Index of the first case-insensitive occurrence of the pattern. -/
def findCI (pat : Str) : Str → Option Nat
  | [] => if matchCI pat [] then some 0 else none
  | c :: rest =>
    if matchCI pat (c :: rest) then some 0
    else (findCI pat rest).map (· + 1)

/-- JavaScript String.includes for a literal pattern (case-sensitive). -/
def containsSub (pat : Str) : Str → Bool
  | [] => matchCS pat []
  | c :: rest => matchCS pat (c :: rest) || containsSub pat rest

/-- Case-insensitive containment, the applicability test of the
case-insensitive removal regexes. -/
def containsCI (pat : Str) : Str → Bool
  | [] => matchCI pat []
  | c :: rest => matchCI pat (c :: rest) || containsCI pat rest

/-- JavaScript trimStart over the jsWs class. -/
def trimStart (s : Str) : Str := s.dropWhile (fun c => jsWs c)

/-- JavaScript trimEnd over the jsWs class. -/
def trimEnd : Str → Str
  | [] => []
  | c :: rest =>
    match trimEnd rest with
    | [] => if jsWs c then [] else [c]
    | d :: t => c :: d :: t

/-- JavaScript String.trim. -/
def jsTrim (s : Str) : Str := trimEnd (trimStart s)

/-- Global replacement with the empty string of the span regexes
openTag gap closeTag (non-greedy gap, case-insensitive).  When unterm is
true the regex carries the end-of-input alternative on the closing tag,
so an opening tag with no later closing tag consumes the rest of the
buffer; when unterm is false such an opening tag simply fails to match
and the scan moves one character forward, as the JavaScript engine does.
The first argument is fuel, instantiated with the buffer length. -/
def stripSpansF (openP closeP : Str) (unterm : Bool) : Nat → Str → Str
  | 0, s => s
  | _ + 1, [] => []
  | n + 1, c :: rest =>
    if matchCI openP (c :: rest) then
      match findCI closeP ((c :: rest).drop openP.length) with
      | some k =>
          stripSpansF openP closeP unterm n
            (((c :: rest).drop openP.length).drop (k + closeP.length))
      | none =>
          if unterm then [] else c :: stripSpansF openP closeP unterm n rest
    else c :: stripSpansF openP closeP unterm n rest

/-- Wrapper running the span removal with enough fuel. -/
def stripSpans (openP closeP : Str) (unterm : Bool) (s : Str) : Str :=
  stripSpansF openP closeP unterm s.length s

/-- Removal regex of the final pass of generateHtmlFromText for the
thinking vocabulary: terminated spans only (no end-of-input
alternative), case-insensitive, global. -/
def stripThinkingTerm (s : Str) : Str :=
  stripSpans (str "<thinking>") (str "</thinking>") false s

/-- Removal regex of the final pass of generateHtmlFromText for the
think vocabulary: terminated spans only. -/
def stripThinkTerm (s : Str) : Str :=
  stripSpans (str "<think>") (str "</think>") false s

/-- Removal regex of the final pass of generateHtmlFromImages and of the
onChunk callback for the thinking vocabulary: an unterminated opening
tag extends to end of buffer. -/
def stripThinkingToEnd (s : Str) : Str :=
  stripSpans (str "<thinking>") (str "</thinking>") true s

/-- Removal regex of the final pass of generateHtmlFromImages and of the
onChunk callback for the think vocabulary. -/
def stripThinkToEnd (s : Str) : Str :=
  stripSpans (str "<think>") (str "</think>") true s

/-- First-match extraction of the interior of a terminated html code
fence, the match against the fence regex (case-sensitive, non-greedy
interior). -/
def fenceMatch (s : Str) : Option Str :=
  match findCS (str "```html") s with
  | none => none
  | some i =>
    match findCS (str "```") (s.drop (i + 7)) with
    | none => none
    | some k => some ((s.drop (i + 7)).take k)

/-- The fence-selection and trimming tail shared by all reduction paths:
if a terminated html fence matched, the payload is its interior trimmed
and then trimmed again on return; otherwise the whole remaining text
trimmed. -/
def fenceStage (s : Str) : Str :=
  match fenceMatch s with
  | some g => jsTrim (jsTrim g)
  | none => jsTrim s

/-- Final-pass HTML-payload extraction of generateHtmlFromText (streaming
and non-streaming alike): remove terminated thinking spans, then
terminated think spans, then apply the fence stage. -/
def generateHtmlFromTextFinal (fullContent : Str) : Str :=
  fenceStage (stripThinkTerm (stripThinkingTerm fullContent))

/-- Final-pass HTML-payload extraction of generateHtmlFromImages: the
removal regexes carry the end-of-input alternative. -/
def generateHtmlFromImagesFinal (fullContent : Str) : Str :=
  fenceStage (stripThinkToEnd (stripThinkingToEnd fullContent))

/-- HTML view derived by the onChunk streaming callback from the
cumulative buffer (identical in the text and image branches of the UI
handler): removal with end-of-input alternative, then the fence stage. -/
def onChunkHtml (fullContent : Str) : Str :=
  fenceStage (stripThinkToEnd (stripThinkingToEnd fullContent))

/-- Reasoning excerpt derived by the onChunk streaming callback:
case-sensitive includes test for the thinking vocabulary first, else the
think vocabulary; the excerpt runs from after the first opening tag to
the first closing tag, or to end of buffer when none has arrived. -/
def onChunkReasoning (s : Str) : Str :=
  if containsSub (str "<thinking>") s then
    match findCS (str "<thinking>") s with
    | some i =>
      let after := s.drop (i + 10)
      match findCS (str "</thinking>") after with
      | some k => after.take k
      | none => after
    | none => []
  else if containsSub (str "<think>") s then
    match findCS (str "<think>") s with
    | some i =>
      let after := s.drop (i + 7)
      match findCS (str "</think>") after with
      | some k => after.take k
      | none => after
    | none => []
  else []

/-- Has-reasoning test applied to the cumulative buffer by the onChunk
callback (case-sensitive includes of either opening tag). -/
def hasReasoningOf (s : Str) : Bool :=
  containsSub (str "<thinking>") s || containsSub (str "<think>") s

/-- The pair of views the onChunk callback derives from the cumulative
buffer. -/
structure ChunkView where
  html : Str
  reasoning : Str
deriving DecidableEq

/-- Derivation of both views from the cumulative buffer alone. -/
def chunkView (fullContent : Str) : ChunkView :=
  { html := onChunkHtml fullContent, reasoning := onChunkReasoning fullContent }

/-- Job state threaded through the streaming callback: the cumulative
buffer, the one-way has-reasoning latch, and the latest derived views. -/
structure JobState where
  buffer : Str
  hasReasoning : Bool
  view : ChunkView
deriving DecidableEq

/-- One invocation of the onChunk callback: the delta is appended to the
cumulative buffer, the latch is or-ed with the detection on the new
buffer, and both views are rederived from the new buffer from scratch. -/
def onChunkStep (st : JobState) (delta : Str) : JobState :=
  let buf := st.buffer ++ delta
  { buffer := buf
    hasReasoning := st.hasReasoning || hasReasoningOf buf
    view := chunkView buf }

/-- A whole stream of deltas processed chunk by chunk. -/
def runChunks (st : JobState) (ds : List Str) : JobState :=
  ds.foldl onChunkStep st

/-- One parsed streaming frame: optional content delta, optional model
identifier, optional usage record (the usage payload is opaque to the
script, so its type is a parameter). -/
structure Frame (U : Type) where
  deltaContent : Option Str
  model : Option Str
  usage : Option U

/-- Accumulated state of the streaming read loop. -/
structure StreamSt (U : Type) where
  fullContent : Str
  model : Str
  usage : Option U
deriving DecidableEq

/-- Effect of one successfully parsed frame on the loop state, following
the JavaScript truthiness tests: an empty content delta and an empty
model string are falsy and are skipped; a present usage object always
replaces the stored one, and a present nonempty model string always
replaces the stored one. -/
def applyFrame {U : Type} (st : StreamSt U) (f : Frame U) : StreamSt U :=
  let st1 :=
    match f.deltaContent with
    | some c => if c = [] then st else { st with fullContent := st.fullContent ++ c }
    | none => st
  let st2 :=
    match f.model with
    | some m => if m = [] then st1 else { st1 with model := m }
    | none => st1
  match f.usage with
  | some u => { st2 with usage := some u }
  | none => st2

/-- Processing of one line of the streamed body: only lines starting
with the event-data marker are considered; the literal [DONE] payload is
skipped before any parse; a payload the parse oracle rejects is
swallowed; a parsed frame is applied to the state. -/
def processLine {U : Type} (parse : Str → Option (Frame U)) (st : StreamSt U)
    (line : Str) : StreamSt U :=
  if matchCS (str "data: ") line then
    let data := line.drop 6
    if data = str "[DONE]" then st
    else
      match parse data with
      | none => st
      | some f => applyFrame st f
  else st

/-- The read loop over a list of already-split lines. -/
def processLines {U : Type} (parse : Str → Option (Frame U)) (st : StreamSt U)
    (lines : List Str) : StreamSt U :=
  lines.foldl (processLine parse) st

/-- Join of the per-item strings of one page with single spaces, the
items.map(item to item.str).join(' ') step of extractTextFromPDF. -/
def joinItems (items : List Str) : Str :=
  List.intercalate [' '] items

/-- Concatenation of the page texts, a newline appended after each page,
the page loop of extractTextFromPDF. -/
def rawPagesText (pages : List Str) : Str :=
  (pages.map (fun pg => pg ++ ['\n'])).flatten

/-- Replacement of every maximal run of characters of the class by one
space, the global replace of a one-class-plus regex.  The boolean tracks
whether the previous character was inside a run. -/
def collapseAux (p : Char → Bool) : Bool → Str → Str
  | _, [] => []
  | inRun, c :: rest =>
    if p c then
      if inRun then collapseAux p true rest
      else ' ' :: collapseAux p true rest
    else c :: collapseAux p false rest

/-- Entry point of the run collapsing. -/
def collapseRuns (p : Char → Bool) (s : Str) : Str := collapseAux p false s

/-- Whitespace normalisation of extractTextFromPDF: newline runs to one
space, then whitespace runs to one space, then trim. -/
def normalizePDFText (s : Str) : Str :=
  jsTrim (collapseRuns jsWs (collapseRuns (fun c => c == '\n') s))

/-- Pure model of extractTextFromPDF: the input is the list of pages,
each page the list of its text items (the pdf.js decoding itself is the
external library; a page-decode failure aborts the whole extraction, so
every value of this type is a successfully decoded document). -/
def extractTextFromPDF (pages : List (List Str)) : Str :=
  normalizePDFText (rawPagesText (pages.map joinItems))

/-- No two adjacent characters of the string are both whitespace: the
single-spaced-runs property of the normalised transcript. -/
def chainOk : Str → Bool
  | a :: b :: rest => (!(jsWs a && jsWs b)) && chainOk (b :: rest)
  | _ => true

/-! Helper lemmas about the scanning primitives. -/

theorem matchCS_append : ∀ (p s t : Str), matchCS p s = true → matchCS p (s ++ t) = true := by
  intro p
  induction p with
  | nil => intro s t _; cases s <;> simp [matchCS]
  | cons q ps ih =>
    intro s t h
    cases s with
    | nil => simp [matchCS] at h
    | cons c cs =>
      simp only [matchCS, Bool.and_eq_true, beq_iff_eq] at h
      simp only [List.cons_append, matchCS, Bool.and_eq_true, beq_iff_eq]
      exact ⟨h.1, ih cs t h.2⟩

theorem matchCS_self_append : ∀ (p t : Str), matchCS p (p ++ t) = true := by
  intro p
  induction p with
  | nil => intro t; cases t <;> simp [matchCS]
  | cons q ps ih =>
    intro t
    simp [List.cons_append, matchCS, ih t]

theorem containsSub_nil_pat : ∀ s : Str, containsSub [] s = true := by
  intro s; cases s <;> simp [containsSub, matchCS]

theorem containsSub_append_right :
    ∀ (pat s t : Str), containsSub pat s = true → containsSub pat (s ++ t) = true := by
  intro pat s
  induction s with
  | nil =>
    intro t h
    cases pat with
    | nil => exact containsSub_nil_pat t
    | cons q ps => simp [containsSub, matchCS] at h
  | cons c cs ih =>
    intro t h
    simp only [containsSub, Bool.or_eq_true] at h
    simp only [List.cons_append, containsSub, Bool.or_eq_true]
    rcases h with h | h
    · exact Or.inl (by simpa using matchCS_append pat (c :: cs) t h)
    · exact Or.inr (ih t h)

theorem hasReasoningOf_append {b t : Str} (h : hasReasoningOf b = true) :
    hasReasoningOf (b ++ t) = true := by
  simp only [hasReasoningOf, Bool.or_eq_true] at h ⊢
  rcases h with h | h
  · exact Or.inl (containsSub_append_right _ b t h)
  · exact Or.inr (containsSub_append_right _ b t h)

theorem stripSpansF_of_not_containsCI :
    ∀ (op cl : Str) (u : Bool) (s : Str) (n : Nat),
      containsCI op s = false → stripSpansF op cl u n s = s := by
  intro op cl u s
  induction s with
  | nil => intro n _; cases n <;> rfl
  | cons c cs ih =>
    intro n h
    simp only [containsCI, Bool.or_eq_false_iff] at h
    cases n with
    | zero => rfl
    | succ n =>
      simp only [stripSpansF, h.1, Bool.false_eq_true, if_false, List.cons.injEq, true_and]
      exact ih n h.2

theorem strip_of_not_containsCI {op cl : Str} {u : Bool} {s : Str}
    (h : containsCI op s = false) : stripSpans op cl u s = s :=
  stripSpansF_of_not_containsCI op cl u s s.length h

theorem findCS_cons_of_not {pat : Str} {c : Char} {rest : Str}
    (h : matchCS pat (c :: rest) = false) :
    findCS pat (c :: rest) = (findCS pat rest).map (· + 1) := by
  simp [findCS, h]

theorem findCS_cons_of_yes {pat : Str} {c : Char} {rest : Str}
    (h : matchCS pat (c :: rest) = true) :
    findCS pat (c :: rest) = some 0 := by
  simp [findCS, h]

theorem findCS_fresh :
    ∀ (a : Char) (ps pre tail : Str), a ∉ pre →
      findCS (a :: ps) (pre ++ (a :: ps) ++ tail) = some pre.length := by
  intro a ps pre
  induction pre with
  | nil =>
    intro tail _
    have hm : matchCS (a :: ps) (a :: (ps ++ tail)) = true :=
      matchCS_self_append (a :: ps) tail
    exact findCS_cons_of_yes hm
  | cons b pre' ih =>
    intro tail hmem
    have hb : (a == b) = false := by
      simp only [beq_eq_false_iff_ne, ne_eq]
      intro e; exact hmem (by rw [e]; exact List.mem_cons_self _ _)
    have hm : matchCS (a :: ps) (b :: (pre' ++ (a :: ps) ++ tail)) = false := by
      simp [matchCS, hb]
    have hrec := ih tail (fun hh => hmem (List.mem_cons_of_mem _ hh))
    have hgoal : findCS (a :: ps) (b :: (pre' ++ (a :: ps) ++ tail)) =
        some (pre'.length + 1) := by
      rw [findCS_cons_of_not hm, hrec]; rfl
    exact hgoal

/-! Helper lemmas about trimming. -/

theorem trimStart_head :
    ∀ (s : Str) (c : Char) (t : Str), trimStart s = c :: t → jsWs c = false := by
  intro s
  induction s with
  | nil => intro c t h; simp [trimStart] at h
  | cons a rest ih =>
    intro c t h
    by_cases ha : jsWs a = true
    · rw [trimStart, List.dropWhile_cons_of_pos (by simpa using ha)] at h
      exact ih c t h
    · rw [trimStart, List.dropWhile_cons_of_neg (by simpa using ha)] at h
      rcases List.cons.inj h with ⟨rfl, rfl⟩
      simpa using ha

theorem trimEnd_head :
    ∀ (s : Str) (c : Char) (t : Str), trimEnd s = c :: t → ∃ r, s = c :: r := by
  intro s
  cases s with
  | nil => intro c t h; simp [trimEnd] at h
  | cons a rest =>
    intro c t h
    rw [trimEnd] at h
    cases hr : trimEnd rest with
    | nil =>
      rw [hr] at h
      by_cases ha : jsWs a = true
      · simp [ha] at h
      · simp only [ha] at h
        simp only [Bool.false_eq_true, if_false] at h
        rcases List.cons.inj h with ⟨rfl, _⟩
        exact ⟨rest, rfl⟩
    | cons d u =>
      rw [hr] at h
      rcases List.cons.inj h with ⟨rfl, _⟩
      exact ⟨rest, rfl⟩

theorem trimEnd_idem : ∀ s : Str, trimEnd (trimEnd s) = trimEnd s := by
  intro s
  induction s with
  | nil => rfl
  | cons c rest ih =>
    rw [trimEnd]
    cases hr : trimEnd rest with
    | nil =>
      by_cases hc : jsWs c = true
      · simp [hc, trimEnd]
      · simp only [hc, Bool.false_eq_true, if_false]
        rw [trimEnd, trimEnd]
        simp [hc]
    | cons d u =>
      have h2 : trimEnd (d :: u) = d :: u := by rw [← hr]; rw [hr] at ih ⊢; exact ih
      rw [trimEnd, h2]

theorem trimStart_trimEnd_trimStart :
    ∀ s : Str, trimStart (trimEnd (trimStart s)) = trimEnd (trimStart s) := by
  intro s
  cases h : trimEnd (trimStart s) with
  | nil => rfl
  | cons c t =>
    obtain ⟨r, hr⟩ := trimEnd_head (trimStart s) c t h
    have hws : jsWs c = false := trimStart_head s c r hr
    rw [trimStart, List.dropWhile_cons_of_neg (by simp [hws])]

theorem jsTrim_idem : ∀ s : Str, jsTrim (jsTrim s) = jsTrim s := by
  intro s
  rw [jsTrim, jsTrim, trimStart_trimEnd_trimStart, trimEnd_idem]

theorem mem_trimStart {c : Char} {s : Str} (h : c ∈ trimStart s) : c ∈ s := by
  induction s with
  | nil => simp [trimStart] at h
  | cons a rest ih =>
    by_cases ha : jsWs a = true
    · rw [trimStart, List.dropWhile_cons_of_pos (by simpa using ha)] at h
      exact List.mem_cons_of_mem _ (ih h)
    · rw [trimStart, List.dropWhile_cons_of_neg (by simpa using ha)] at h
      exact h

theorem mem_trimEnd {c : Char} : ∀ {s : Str}, c ∈ trimEnd s → c ∈ s := by
  intro s
  induction s with
  | nil => intro h; simp [trimEnd] at h
  | cons a rest ih =>
    intro h
    rw [trimEnd] at h
    cases hr : trimEnd rest with
    | nil =>
      rw [hr] at h
      by_cases ha : jsWs a = true
      · simp [ha] at h
      · simp only [ha, Bool.false_eq_true, if_false, List.mem_singleton] at h
        simp [h]
    | cons d u =>
      rw [hr] at h
      rcases List.mem_cons.mp h with rfl | h2
      · exact List.mem_cons_self _ _
      · exact List.mem_cons_of_mem _ (ih (hr ▸ h2))

theorem mem_jsTrim {c : Char} {s : Str} (h : c ∈ jsTrim s) : c ∈ s :=
  mem_trimStart (mem_trimEnd h)

/-! Helper lemmas about run collapsing and the single-spaced-runs
property. -/

theorem mem_collapseAux {c : Char} :
    ∀ (s : Str) (b : Bool), c ∈ collapseAux jsWs b s → c = ' ' ∨ jsWs c = false := by
  intro s
  induction s with
  | nil => intro b h; simp [collapseAux] at h
  | cons a rest ih =>
    intro b h
    by_cases ha : jsWs a = true
    · cases b with
      | true =>
        rw [collapseAux] at h
        simp only [ha, if_true] at h
        exact ih true h
      | false =>
        rw [collapseAux] at h
        simp only [ha, if_true, Bool.false_eq_true, if_false] at h
        rcases List.mem_cons.mp h with rfl | h2
        · exact Or.inl rfl
        · exact ih true h2
    · rw [collapseAux] at h
      simp only [ha, Bool.false_eq_true, if_false] at h
      rcases List.mem_cons.mp h with rfl | h2
      · exact Or.inr (by simpa using ha)
      · exact ih false h2

theorem collapseAux_true_head :
    ∀ (s : Str) (c : Char) (t : Str),
      collapseAux jsWs true s = c :: t → jsWs c = false := by
  intro s
  induction s with
  | nil => intro c t h; simp [collapseAux] at h
  | cons a rest ih =>
    intro c t h
    by_cases ha : jsWs a = true
    · rw [collapseAux] at h
      simp only [ha, if_true] at h
      exact ih c t h
    · rw [collapseAux] at h
      simp only [ha, Bool.false_eq_true, if_false] at h
      rcases List.cons.inj h with ⟨rfl, _⟩
      simpa using ha

theorem chainOk_collapseAux :
    ∀ (s : Str) (b : Bool), chainOk (collapseAux jsWs b s) = true := by
  intro s
  induction s with
  | nil => intro b; rfl
  | cons a rest ih =>
    intro b
    by_cases ha : jsWs a = true
    · cases b with
      | true =>
        rw [collapseAux]; simp only [ha, if_true]
        exact ih true
      | false =>
        rw [collapseAux]; simp only [ha, if_true, Bool.false_eq_true, if_false]
        cases hr : collapseAux jsWs true rest with
        | nil => rfl
        | cons d u =>
          have hd : jsWs d = false := collapseAux_true_head rest d u hr
          rw [chainOk]
          simp only [hd, Bool.and_false, Bool.not_false, Bool.true_and]
          rw [← hr]; exact ih true
    · rw [collapseAux]
      simp only [ha, Bool.false_eq_true, if_false]
      cases hr : collapseAux jsWs false rest with
      | nil => rfl
      | cons d u =>
        rw [chainOk]
        have ha2 : jsWs a = false := by simpa using ha
        simp only [ha2, Bool.false_and, Bool.not_false, Bool.true_and]
        rw [← hr]; exact ih false

theorem chainOk_tail {a : Char} {s : Str} (h : chainOk (a :: s) = true) :
    chainOk s = true := by
  cases s with
  | nil => rfl
  | cons b r =>
    rw [chainOk] at h
    exact (Bool.and_eq_true _ _ |>.mp h).2

theorem chainOk_trimStart : ∀ {s : Str}, chainOk s = true → chainOk (trimStart s) = true := by
  intro s
  induction s with
  | nil => intro h; exact h
  | cons a rest ih =>
    intro h
    by_cases ha : jsWs a = true
    · rw [trimStart, List.dropWhile_cons_of_pos (by simpa using ha)]
      exact ih (chainOk_tail h)
    · rw [trimStart, List.dropWhile_cons_of_neg (by simpa using ha)]
      exact h

theorem chainOk_trimEnd : ∀ {s : Str}, chainOk s = true → chainOk (trimEnd s) = true := by
  intro s
  induction s with
  | nil => intro h; exact h
  | cons a rest ih =>
    intro h
    rw [trimEnd]
    cases hr : trimEnd rest with
    | nil =>
      by_cases ha : jsWs a = true
      · simp [ha, chainOk]
      · simp [ha, chainOk]
    | cons d u =>
      obtain ⟨r, hrest⟩ := trimEnd_head rest d u hr
      rw [chainOk]
      have hchain : chainOk (d :: u) = true := by
        rw [← hr]; exact ih (chainOk_tail h)
      have hpair : (!(jsWs a && jsWs d)) = true := by
        subst hrest
        rw [chainOk] at h
        exact (Bool.and_eq_true _ _ |>.mp h).1
      rw [hpair, hchain]; rfl

/-! Claim theorems. -/

/-- C2, counterexample: the sentinel data frame does not end the read
loop.  With a parse oracle that recognises the payload one as a frame
carrying the delta after, a stream whose lines are the sentinel frame
followed by that frame still accumulates the content after, so a frame
arriving after the sentinel is processed, refuting the claim that the
loop ends at the sentinel. -/
theorem c2_counterexample :
    (processLines (U := Unit)
      (fun d => if d = str "one" then some ⟨some (str "after"), none, none⟩ else none)
      ⟨[], [], none⟩
      [str "data: [DONE]", str "data: one"]).fullContent = str "after" ∧
    str "after" ≠ ([] : Str) := by
  exact ⟨rfl, by decide⟩

/-- C2, amended: a data frame whose payload is the literal sentinel is
skipped without being consulted by the JSON parse (the resulting state
does not depend on the parse oracle at all) and leaves the accumulated
state unchanged, but the read loop continues: the remaining lines are
processed exactly as if the sentinel line had not been there.  The loop
itself ends only when the transport reports end of stream. -/
theorem c2_sentinel_skipped :
    ∀ (U : Type) (parse : Str → Option (Frame U)) (st : StreamSt U) (rest : List Str),
      processLine parse st (str "data: [DONE]") = st ∧
      processLines parse st (str "data: [DONE]" :: rest) =
        processLines parse st rest := by
  intro U parse st rest
  have h1 : processLine parse st (str "data: [DONE]") = st := rfl
  refine ⟨h1, ?_⟩
  simp only [processLines, List.foldl_cons, h1]

/-- C3, counterexample: with two frames reporting model identifiers
alpha then beta, the loop retains beta: the later model field replaces
the earlier one, refuting first-model-wins. -/
theorem c3_counterexample :
    (processLines (U := Unit)
      (fun d => if d = str "one" then some ⟨none, some (str "alpha"), none⟩
                else if d = str "two" then some ⟨none, some (str "beta"), none⟩
                else none)
      ⟨[], [], none⟩
      [str "data: one", str "data: two"]).model = str "beta" ∧
    str "beta" ≠ str "alpha" := by
  exact ⟨rfl, by decide⟩

/-- C3, amended: every frame carrying a nonempty model identifier
replaces the recorded model (so the last reported identifier wins, not
the first), and every frame carrying a usage record replaces any prior
usage value. -/
theorem c3_model_last_wins :
    ∀ (U : Type),
      (∀ (st : StreamSt U) (f : Frame U) (m : Str),
        f.model = some m → m ≠ [] → (applyFrame st f).model = m) ∧
      (∀ (st : StreamSt U) (f : Frame U) (u : U),
        f.usage = some u → (applyFrame st f).usage = some u) := by
  intro U
  constructor
  · intro st f m hm hne
    cases hd : f.deltaContent <;> cases hu : f.usage <;>
      simp [applyFrame, hd, hm, hu, hne]
  · intro st f u hu
    cases hd : f.deltaContent <;> cases hm : f.model <;>
      simp [applyFrame, hd, hm, hu]

/-- C3 witness: a frame carrying model beta and a usage record applied
over a state already holding model alpha yields model beta and the new
usage. -/
theorem c3_model_last_wins_witness :
    (applyFrame (U := Unit) ⟨[], str "alpha", none⟩
      ⟨none, some (str "beta"), some ()⟩).model = str "beta" ∧
    (applyFrame (U := Unit) ⟨[], str "alpha", none⟩
      ⟨none, some (str "beta"), some ()⟩).usage = some () :=
  ⟨(c3_model_last_wins Unit).1 ⟨[], str "alpha", none⟩
      ⟨none, some (str "beta"), some ()⟩ (str "beta") rfl (by decide),
   (c3_model_last_wins Unit).2 ⟨[], str "alpha", none⟩
      ⟨none, some (str "beta"), some ()⟩ () rfl⟩

/-- C6: the has-reasoning latch is monotonic.  First part: detection on
the cumulative buffer is monotone under buffer extension, so once either
opening tag has appeared it keeps being detected in every later
cumulative buffer of the job.  Second part: the latch update of the
onChunk callback is a one-way or, so a latch that is true stays true
after any further chunk. -/
theorem c6_latch_monotone :
    (∀ b1 b2 : Str, b1 <+: b2 → hasReasoningOf b1 = true → hasReasoningOf b2 = true) ∧
    (∀ (st : JobState) (d : Str), st.hasReasoning = true →
      (onChunkStep st d).hasReasoning = true) := by
  constructor
  · intro b1 b2 hp h
    obtain ⟨t, rfl⟩ := hp
    exact hasReasoningOf_append h
  · intro st d h
    simp [onChunkStep, h]

/-- C6 witness: a buffer holding the think opening tag, extended by one
character, is still detected; a job state whose latch is already true
keeps a true latch after a further chunk. -/
theorem c6_latch_monotone_witness :
    hasReasoningOf (str "a<think>b") = true ∧
    (onChunkStep ⟨str "a<think>", true, ⟨[], []⟩⟩ (str "b")).hasReasoning = true :=
  ⟨c6_latch_monotone.1 (str "a<think>") (str "a<think>b")
      ⟨str "b", by decide⟩ (by decide),
   c6_latch_monotone.2 ⟨str "a<think>", true, ⟨[], []⟩⟩ (str "b") rfl⟩

/-- C8: a data frame whose payload the JSON parse rejects is silently
skipped: it leaves the whole accumulated state (content buffer, model,
usage) unchanged, and the loop processes the remaining lines exactly as
if the malformed line had not been there. -/
theorem c8_malformed_frame_skipped :
    ∀ (U : Type) (parse : Str → Option (Frame U)) (st : StreamSt U)
      (d : Str) (rest : List Str),
      parse d = none →
      processLine parse st (str "data: " ++ d) = st ∧
      processLines parse st ((str "data: " ++ d) :: rest) =
        processLines parse st rest := by
  intro U parse st d rest hp
  have hpre : matchCS (str "data: ") (str "data: " ++ d) = true :=
    matchCS_self_append (str "data: ") d
  have hdrop : (str "data: " ++ d).drop 6 = d := List.drop_left' rfl
  have h1 : processLine parse st (str "data: " ++ d) = st := by
    unfold processLine
    rw [hpre]
    simp only [if_true, hdrop]
    by_cases hd : d = str "[DONE]"
    · simp [hd]
    · simp [hd, hp]
  refine ⟨h1, ?_⟩
  simp only [processLines, List.foldl_cons, h1]

/-- C8 witness: with a parse oracle rejecting everything, a malformed
data line leaves the initial state unchanged and the loop continues with
the remaining lines. -/
theorem c8_malformed_frame_skipped_witness :
    processLine (U := Unit) (fun _ => none) ⟨[], [], none⟩
      (str "data: " ++ str "oops") = ⟨[], [], none⟩ ∧
    processLines (U := Unit) (fun _ => none) ⟨[], [], none⟩
      ((str "data: " ++ str "oops") :: [str "data: [DONE]"]) =
      processLines (fun _ => none) ⟨[], [], none⟩ [str "data: [DONE]"] :=
  c8_malformed_frame_skipped Unit (fun _ => none) ⟨[], [], none⟩
    (str "oops") [str "data: [DONE]"] rfl

/-- C1: divergence witness for the unterminated-reasoning rule.  On the
final buffer A thinking-tag secret with no closing tag, the onChunk
reasoning excerpt is everything after the opening tag and the
image-modality final pass and the per-chunk html view both exclude the
trailing region, as the claim states; but the text-modality final pass,
whose removal regexes lack the end-of-input alternative, leaves the
unterminated span in place and returns the whole buffer as the HTML
payload, contradicting the claim for that path. -/
theorem c1_text_final_leak :
    generateHtmlFromTextFinal (str "A<thinking>secret") = str "A<thinking>secret" ∧
    generateHtmlFromImagesFinal (str "A<thinking>secret") = str "A" ∧
    onChunkReasoning (str "A<thinking>secret") = str "secret" ∧
    onChunkHtml (str "A<thinking>secret") = str "A" := by
  refine ⟨?_, ?_, ?_, ?_⟩ <;> rfl

/-- C4: when the buffer holds no reasoning tag of either vocabulary in
any letter case and no terminated html fence, both final-pass
extractions return the whole buffer trimmed; and on the spec's example
buffer the extraction yields exactly the fence interior trimmed. -/
theorem c4_fence_extraction :
    ∀ b : Str,
      containsCI (str "<thinking>") b = false →
      containsCI (str "<think>") b = false →
      fenceMatch b = none →
      (generateHtmlFromTextFinal b = jsTrim b ∧
       generateHtmlFromImagesFinal b = jsTrim b) ∧
      generateHtmlFromTextFinal (str "prefix ```html\n<p>hi</p>\n``` suffix") =
        str "<p>hi</p>" ∧
      generateHtmlFromImagesFinal (str "prefix ```html\n<p>hi</p>\n``` suffix") =
        str "<p>hi</p>" := by
  intro b h1 h2 h3
  have e1 : stripThinkingTerm b = b := strip_of_not_containsCI h1
  have e2 : stripThinkTerm b = b := strip_of_not_containsCI h2
  have e3 : stripThinkingToEnd b = b := strip_of_not_containsCI h1
  have e4 : stripThinkToEnd b = b := strip_of_not_containsCI h2
  have hfs : fenceStage b = jsTrim b := by rw [fenceStage, h3]
  refine ⟨⟨?_, ?_⟩, rfl, rfl⟩
  · rw [generateHtmlFromTextFinal, e1, e2, hfs]
  · rw [generateHtmlFromImagesFinal, e3, e4, hfs]

/-- C4 witness: the buffer of one paragraph with surrounding blanks has
no reasoning tags and no terminated fence, and both extractions return
it trimmed; the example-buffer conjuncts are closed. -/
theorem c4_fence_extraction_witness :
    (generateHtmlFromTextFinal (str " <p>hi</p> ") = jsTrim (str " <p>hi</p> ") ∧
     generateHtmlFromImagesFinal (str " <p>hi</p> ") = jsTrim (str " <p>hi</p> ")) ∧
    generateHtmlFromTextFinal (str "prefix ```html\n<p>hi</p>\n``` suffix") =
      str "<p>hi</p>" ∧
    generateHtmlFromImagesFinal (str "prefix ```html\n<p>hi</p>\n``` suffix") =
      str "<p>hi</p>" :=
  c4_fence_extraction (str " <p>hi</p> ") (by decide) (by decide) (by decide)

theorem runChunks_buffer :
    ∀ (ds : List Str) (st : JobState),
      (runChunks st ds).buffer = st.buffer ++ ds.flatten := by
  intro ds
  induction ds with
  | nil => intro st; simp [runChunks]
  | cons d ds ih =>
    intro st
    have hstep : runChunks st (d :: ds) = runChunks (onChunkStep st d) ds := rfl
    rw [hstep, ih]
    simp [onChunkStep, List.flatten_cons, List.append_assoc]

theorem runChunks_view :
    ∀ (ds : List Str), ds ≠ [] → ∀ (st : JobState),
      (runChunks st ds).view = chunkView ((runChunks st ds).buffer) := by
  intro ds
  induction ds with
  | nil => intro h; exact absurd rfl h
  | cons d ds ih =>
    intro _ st
    cases ds with
    | nil => rfl
    | cons e es => exact ih (List.cons_ne_nil e es) (onChunkStep st d)

/-- C5: the per-chunk reduction is a pure function of the cumulative
buffer.  Processing any nonempty sequence of deltas leaves a cumulative
buffer equal to the starting buffer followed by all deltas, and the
final derived view (html payload plus reasoning excerpt) equals the view
computed from scratch on that buffer alone — so recomputing the
reduction once more on the same buffer, as the stream-end pass does,
yields an identical result, and no state other than the buffer feeds the
derivation. -/
theorem c5_reducer_pure :
    ∀ (st : JobState) (ds : List Str), ds ≠ [] →
      (runChunks st ds).buffer = st.buffer ++ ds.flatten ∧
      (runChunks st ds).view = chunkView (st.buffer ++ ds.flatten) := by
  intro st ds hne
  have hb := runChunks_buffer ds st
  exact ⟨hb, by rw [runChunks_view ds hne st, hb]⟩

/-- C5 witness: one delta processed from the empty starting state yields
the view computed from the cumulative buffer alone. -/
theorem c5_reducer_pure_witness :
    (runChunks ⟨[], false, ⟨[], []⟩⟩ [str "<p>a</p>"]).buffer =
      ([] : Str) ++ ([str "<p>a</p>"] : List Str).flatten ∧
    (runChunks ⟨[], false, ⟨[], []⟩⟩ [str "<p>a</p>"]).view =
      chunkView (([] : Str) ++ ([str "<p>a</p>"] : List Str).flatten) :=
  c5_reducer_pure ⟨[], false, ⟨[], []⟩⟩ [str "<p>a</p>"] (by decide)

/-- C7: for every successfully decoded document the extracted transcript
is fully normalised: it contains no newline character, no two adjacent
whitespace characters (single-spaced runs), and is stable under a
further trim; on a concrete two-page document the result is the
space-joined, space-collapsed, trimmed transcript. -/
theorem c7_extract_text_normalized :
    ∀ (pages : List (List Str)),
      ('\n' ∉ extractTextFromPDF pages) ∧
      chainOk (extractTextFromPDF pages) = true ∧
      jsTrim (extractTextFromPDF pages) = extractTextFromPDF pages ∧
      extractTextFromPDF [[str "Hello", str "world"], [str "foo"]] =
        str "Hello world foo" := by
  intro pages
  refine ⟨?_, ?_, ?_, rfl⟩
  · intro h
    have h2 : '\n' ∈ collapseRuns jsWs
        (collapseRuns (fun c => c == '\n') (rawPagesText ((pages.map joinItems)))) :=
      mem_jsTrim h
    rcases mem_collapseAux _ false h2 with h3 | h3
    · exact absurd h3 (by decide)
    · exact absurd h3 (by decide)
  · exact chainOk_trimEnd (chainOk_trimStart (chainOk_collapseAux _ false))
  · exact jsTrim_idem _

/-- C9: reasoning-tag handling is case-asymmetric.  For every buffer
holding neither lowercase opening tag, the latch stays false and the
reasoning excerpt is empty (detection is case-sensitive), while on the
concrete all-uppercase buffer the case-insensitive removal regexes still
strip the delimited span from the html view even though its latch is
false and its excerpt empty. -/
theorem c9_case_asymmetry :
    ∀ b : Str,
      containsSub (str "<thinking>") b = false →
      containsSub (str "<think>") b = false →
      (hasReasoningOf b = false ∧ onChunkReasoning b = []) ∧
      onChunkHtml (str "<THINKING>abc</THINKING><p>hi</p>") = str "<p>hi</p>" ∧
      hasReasoningOf (str "<THINKING>abc</THINKING><p>hi</p>") = false ∧
      onChunkReasoning (str "<THINKING>abc</THINKING><p>hi</p>") = [] := by
  intro b h1 h2
  refine ⟨⟨?_, ?_⟩, rfl, rfl, rfl⟩
  · simp [hasReasoningOf, h1, h2]
  · rw [onChunkReasoning]
    simp [h1, h2]

/-- C9 witness: the all-uppercase buffer itself contains neither
lowercase opening tag, so its latch is false and its excerpt empty,
while its html view has the span removed. -/
theorem c9_case_asymmetry_witness :
    (hasReasoningOf (str "<THINKING>abc</THINKING><p>hi</p>") = false ∧
     onChunkReasoning (str "<THINKING>abc</THINKING><p>hi</p>") = []) ∧
    onChunkHtml (str "<THINKING>abc</THINKING><p>hi</p>") = str "<p>hi</p>" ∧
    hasReasoningOf (str "<THINKING>abc</THINKING><p>hi</p>") = false ∧
    onChunkReasoning (str "<THINKING>abc</THINKING><p>hi</p>") = [] :=
  c9_case_asymmetry (str "<THINKING>abc</THINKING><p>hi</p>") (by decide) (by decide)

theorem fenceStage_decomp :
    ∀ (pre mid rest : Str), '`' ∉ pre → '`' ∉ mid →
      fenceStage ((pre ++ str "```html") ++ ((mid ++ str "```") ++ rest)) =
        jsTrim mid := by
  intro pre mid rest hpre hmid
  have h7 : findCS (str "```html")
      ((pre ++ str "```html") ++ ((mid ++ str "```") ++ rest)) = some pre.length :=
    findCS_fresh '`' (str "``html") pre ((mid ++ str "```") ++ rest) hpre
  have hlen : (pre ++ str "```html").length = pre.length + 7 := by
    rw [List.length_append]; rfl
  have hdrop : ((pre ++ str "```html") ++ ((mid ++ str "```") ++ rest)).drop
      (pre.length + 7) = (mid ++ str "```") ++ rest :=
    List.drop_left' hlen
  have hclose : findCS (str "```") ((mid ++ str "```") ++ rest) = some mid.length :=
    findCS_fresh '`' (str "``") mid rest hmid
  have htake : ((mid ++ str "```") ++ rest).take mid.length = mid := by
    rw [List.append_assoc]
    exact List.take_left' rfl
  have hfm : fenceMatch ((pre ++ str "```html") ++ ((mid ++ str "```") ++ rest)) =
      some mid := by
    simp only [fenceMatch, h7, hdrop, hclose, htake]
  have hstage : fenceStage ((pre ++ str "```html") ++ ((mid ++ str "```") ++ rest)) =
      jsTrim (jsTrim mid) := by
    simp only [fenceStage, hfm]
  rw [hstage, jsTrim_idem]

/-- C10: the first terminated html fence wins.  If the buffer after
reasoning-span removal decomposes as a backtick-free part, a first
terminated fence, and an arbitrary remainder (which may hold any number
of further fences), the extracted payload is exactly the trimmed
interior of that first fence, for the text-modality and image-modality
final passes alike; everything outside that fence, including all later
fences, is discarded. -/
theorem c10_first_fence_wins :
    ∀ (b bi pre mid rest : Str), '`' ∉ pre → '`' ∉ mid →
      stripThinkTerm (stripThinkingTerm b) =
        (pre ++ str "```html") ++ ((mid ++ str "```") ++ rest) →
      stripThinkToEnd (stripThinkingToEnd bi) =
        (pre ++ str "```html") ++ ((mid ++ str "```") ++ rest) →
      generateHtmlFromTextFinal b = jsTrim mid ∧
      generateHtmlFromImagesFinal bi = jsTrim mid := by
  intro b bi pre mid rest hpre hmid hb hbi
  constructor
  · rw [generateHtmlFromTextFinal, hb]
    exact fenceStage_decomp pre mid rest hpre hmid
  · rw [generateHtmlFromImagesFinal, hbi]
    exact fenceStage_decomp pre mid rest hpre hmid

/-- C10 witness: a buffer holding two terminated fences yields the
trimmed interior of the first one from both final passes. -/
theorem c10_first_fence_wins_witness :
    generateHtmlFromTextFinal (str "x ```html\nA\n``` y ```html\nB\n``` z") =
      jsTrim (str "\nA\n") ∧
    generateHtmlFromImagesFinal (str "x ```html\nA\n``` y ```html\nB\n``` z") =
      jsTrim (str "\nA\n") :=
  c10_first_fence_wins
    (str "x ```html\nA\n``` y ```html\nB\n``` z")
    (str "x ```html\nA\n``` y ```html\nB\n``` z")
    (str "x ") (str "\nA\n") (str " y ```html\nB\n``` z")
    (by decide) (by decide) (by decide) (by decide)
